import Mathlib

/-!
# Verification of the LedgerApp core store (`src/ledger.py`)

Shallow embedding of the in-memory ledger store: the `Record` data model,
the `LedgerStore` with its CRUD / search / aggregation operations and the
JSON import/export round trip, translated from `src/ledger.py`.

Modelling conventions:
* Python `float` amounts are modelled as `ℚ` (exact arithmetic; the claims
  under verification are about which records contribute to which sums, not
  about IEEE rounding).
* `datetime.date` is a `(year, month, day)` structure together with the
  calendar-validity predicate that `dt.date` enforces at construction;
  comparison of dates is lexicographic, as in Python.
* Python `dict` (insertion ordered, unique keys) is an association list with
  `dictSet` / `dictGet` mirroring item assignment and `.get`.
* `uuid.uuid4()` is modelled by an explicitly supplied fresh identifier
  (respectively a supply `Nat → String` for import); uniqueness/non-emptiness
  of generated uuids becomes an explicit hypothesis where a claim needs it.
* The JSON text layer is modelled at payload level: `json.loads` either fails
  (`none`) or produces the parsed structure; a record entry's `date` string
  `"YYYY-MM-DD"` is carried as its `(y, m, d)` digit content, and
  `date.fromisoformat` is the calendar-validity check on that triple.
-/

/-- `datetime.date`: a plain (year, month, day) triple. Validity is tracked by
`Date.valid` below, mirroring the constructor check of `dt.date`. -/
structure Date where
  year : Nat
  month : Nat
  day : Nat
deriving DecidableEq, Repr

/-- Gregorian leap-year rule, as implemented by `datetime`. -/
def Date.isLeap (y : Nat) : Bool :=
  (y % 4 == 0 && y % 100 != 0) || (y % 400 == 0)

/-- Number of days in a month, as implemented by `datetime`. -/
def Date.daysInMonth (y m : Nat) : Nat :=
  if m = 2 then (if Date.isLeap y then 29 else 28)
  else if m = 4 ∨ m = 6 ∨ m = 9 ∨ m = 11 then 30
  else 31

/-- The validity predicate `dt.date` enforces: year in 1..9999, month in
1..12, day in 1..days-of-month. -/
def Date.valid (d : Date) : Bool :=
  1 ≤ d.year && d.year ≤ 9999 && 1 ≤ d.month && d.month ≤ 12 &&
    1 ≤ d.day && d.day ≤ Date.daysInMonth d.year d.month

/-- Python date comparison: lexicographic on (year, month, day). -/
def Date.lt (a b : Date) : Bool :=
  decide (a.year < b.year) ||
    (a.year == b.year && (decide (a.month < b.month) ||
      (a.month == b.month && decide (a.day < b.day))))

/-- `date.fromisoformat` on the digit content `(y, m, d)` of a `"YYYY-MM-DD"`
string: returns the date when it is a valid calendar date, fails otherwise. -/
def Date.fromIso (t : Nat × Nat × Nat) : Option Date :=
  let d : Date := ⟨t.1, t.2.1, t.2.2⟩
  if d.valid then some d else none

/-- `date.isoformat`: the digit content of the produced `"YYYY-MM-DD"` string. -/
def Date.toIso (d : Date) : Nat × Nat × Nat :=
  (d.year, d.month, d.day)

/-- One ledger record (`Record` dataclass in `src/ledger.py`). -/
structure Record where
  id : String
  amount : ℚ
  category : String
  category_type : String
  date : Date
deriving DecidableEq, Repr

/-- Python-dict lookup `m.get(k)` on an insertion-ordered association list. -/
def dictGet {κ β : Type} [DecidableEq κ] : List (κ × β) → κ → Option β
  | [], _ => none
  | (k', v) :: rest, k => if k' = k then some v else dictGet rest k

/-- Python-dict item assignment `m[k] = v`: overwrite in place when the key is
present (keeping its position), append otherwise. -/
def dictSet {κ β : Type} [DecidableEq κ] (m : List (κ × β)) (k : κ) (v : β) :
    List (κ × β) :=
  if (m.map Prod.fst).contains k then
    m.map (fun p => if p.1 = k then (k, v) else p)
  else
    m ++ [(k, v)]

/-- `DEFAULT_CATEGORIES` from `src/ledger.py` (8 entries: 2 income, 6 expense). -/
def DEFAULT_CATEGORIES : List (String × String) :=
  [("工资", "income"),
   ("理财收益", "income"),
   ("生活杂费", "expense"),
   ("餐饮", "expense"),
   ("交通", "expense"),
   ("娱乐", "expense"),
   ("学习", "expense"),
   ("医疗", "expense")]

/-- `LedgerStore`: the record list and the category-name → type dict. -/
structure LedgerStore where
  records : List Record
  categories : List (String × String)
deriving DecidableEq, Repr

/-- `LedgerStore.__init__`: empty records, categories seeded with defaults. -/
def initStore : LedgerStore :=
  { records := [],
    categories := DEFAULT_CATEGORIES.foldl (fun m p => dictSet m p.1 p.2) [] }

/-- `LedgerStore.add_category`: no-op on empty name; otherwise upsert with the
given type, defaulting an empty type to `"expense"` (Python `or`). -/
def add_category (s : LedgerStore) (name category_type : String) : LedgerStore :=
  if name = "" then s
  else
    let v := if category_type = "" then "expense" else category_type
    { s with categories := dictSet s.categories name v }

/-- `LedgerStore.get_categories`: `sorted(self.categories.items())`. Category
names in a dict are unique, so sorting the pairs lexicographically is sorting
by name. -/
def get_categories (s : LedgerStore) : List (String × String) :=
  s.categories.mergeSort (fun a b =>
    decide (a.1 < b.1) || (a.1 == b.1 && decide (a.2 ≤ b.2)))

/-- The resolved category type shared by `add_record` and `update_record`:
`category_type or self.categories.get(category, "expense")`. -/
def resolveType (s : LedgerStore) (category category_type : String) : String :=
  if category_type = "" then (dictGet s.categories category).getD "expense"
  else category_type

/-- `LedgerStore.add_record`. `fresh` stands for the generated `uuid4` string. -/
def add_record (fresh : String) (amount : ℚ) (category category_type : String)
    (date : Date) (s : LedgerStore) : Record × LedgerStore :=
  let record : Record :=
    { id := fresh, amount := amount, category := category,
      category_type := resolveType s category category_type, date := date }
  (record,
   add_category { s with records := s.records ++ [record] }
     category record.category_type)

/-- In-place mutation of the first record with the given id (the object
returned by `find_record` is an alias of that list entry). -/
def updateFirst (rid : String) (f : Record → Record) : List Record → List Record
  | [] => []
  | r :: rest =>
      if r.id = rid then f r :: rest else r :: updateFirst rid f rest

/-- `LedgerStore.find_record`: first record with the given id, if any. -/
def find_record (s : LedgerStore) (record_id : String) : Option Record :=
  s.records.find? (fun r => r.id == record_id)

/-- `LedgerStore.update_record`: `None` and no mutation when the id is absent;
otherwise overwrite the found record's four fields in place (the id is kept)
and upsert the category dict as `add_record` does. -/
def update_record (record_id : String) (amount : ℚ)
    (category category_type : String) (date : Date) (s : LedgerStore) :
    Option Record × LedgerStore :=
  match find_record s record_id with
  | none => (none, s)
  | some r =>
      let rtype := resolveType s category category_type
      let updated : Record :=
        { id := r.id, amount := amount, category := category,
          category_type := rtype, date := date }
      (some updated,
       add_category { s with records := updateFirst record_id (fun _ => updated) s.records }
         category rtype)

/-- `LedgerStore.delete_record`: keep every record whose id differs. -/
def delete_record (s : LedgerStore) (record_id : String) : LedgerStore :=
  { s with records := s.records.filter (fun r => r.id ≠ record_id) }

/-- The filter predicate of `LedgerStore.search_records`, including the Python
truthiness tests: a `None` date bound or a `None`/empty-string category imposes
no constraint; amount bounds test `is not None`. -/
def searchKeep (start_date end_date : Option Date) (category : Option String)
    (min_amount max_amount : Option ℚ) (r : Record) : Bool :=
  (match start_date with
   | none => true
   | some sd => !(Date.lt r.date sd)) &&
  (match end_date with
   | none => true
   | some ed => !(Date.lt ed r.date)) &&
  (match category with
   | none => true
   | some c => c == "" || r.category == c) &&
  (match min_amount with
   | none => true
   | some m => !(decide (r.amount < m))) &&
  (match max_amount with
   | none => true
   | some m => !(decide (m < r.amount)))

/-- `LedgerStore.search_records`: filter, then
`sorted(result, key=lambda r: r.date, reverse=True)` (stable descending by
date). -/
def search_records (s : LedgerStore) (start_date end_date : Option Date)
    (category : Option String) (min_amount max_amount : Option ℚ) :
    List Record :=
  (s.records.filter
      (searchKeep start_date end_date category min_amount max_amount)).mergeSort
    (fun a b => !(Date.lt a.date b.date))

/-- The `summary` return dict `{"income", "expense", "balance"}`. -/
structure Summary where
  income : ℚ
  expense : ℚ
  balance : ℚ
deriving DecidableEq, Repr

/-- `LedgerStore.summary`: sums over `search_records(start, end)` split by
`category_type`; Python `sum` is a left fold from `0`. -/
def summary (s : LedgerStore) (start stop : Option Date) : Summary :=
  let records := search_records s start stop none none none
  let income :=
    (records.filter (fun r => r.category_type == "income")).foldl
      (fun acc r => acc + r.amount) 0
  let expense :=
    (records.filter (fun r => r.category_type == "expense")).foldl
      (fun acc r => acc + r.amount) 0
  { income := income, expense := expense, balance := income - expense }

/-- One entry of the `"records"` list in the JSON file. Optional fields mirror
`data.get(...)` versus a `KeyError`-raising `data[...]` access; the `date`
field carries the digit content of its `"YYYY-MM-DD"` string. -/
structure RecordDict where
  id : Option String
  amount : Option ℚ
  category : Option String
  category_type : Option String
  date : Option (Nat × Nat × Nat)
deriving DecidableEq, Repr

/-- One entry of the `"categories"` list in the JSON file. -/
structure CatDict where
  name : String
  category_type : Option String
deriving DecidableEq, Repr

/-- The parsed top-level JSON object. `data.get("records", [])` and
`data.get("categories", [])` make a missing list the empty list. -/
structure Payload where
  records : List RecordDict
  categories : List CatDict
deriving DecidableEq, Repr

/-- `Record.from_dict`: fails (raises) when `amount`, `category` or `date` is
missing or the date is not a valid calendar date; `data.get("id") or uuid4()`
replaces a missing or empty id with the fresh uuid `fresh`; a missing
`category_type` defaults to `"expense"`. -/
def from_dict (fresh : String) (d : RecordDict) : Option Record := do
  let a ← d.amount
  let c ← d.category
  let t ← d.date
  let dt ← Date.fromIso t
  some { id := match d.id with
               | some i => if i = "" then fresh else i
               | none => fresh,
         amount := a, category := c,
         category_type := d.category_type.getD "expense", date := dt }

/-- `Record.to_dict`: every field present, the date as its ISO digit content. -/
def to_dict (r : Record) : RecordDict :=
  { id := some r.id, amount := some r.amount, category := some r.category,
    category_type := some r.category_type, date := some r.date.toIso }

/-- The record list comprehension of `import_json`: parse every entry, the
first failure aborting the whole list (all-or-nothing for `self.records`,
which is assigned only after the comprehension finishes). `freshIds i` is the
uuid generated for the `i`-th entry needing one. -/
def parseRecords (freshIds : Nat → String) : Nat → List RecordDict →
    Option (List Record)
  | _, [] => some []
  | i, d :: rest =>
      match from_dict (freshIds i) d with
      | none => none
      | some r =>
          match parseRecords freshIds (i + 1) rest with
          | none => none
          | some rs => some (r :: rs)

/-- The category-dict rebuild of `import_json`: `self.categories.clear()`,
re-seed with `DEFAULT_CATEGORIES`, then apply every file entry with
`item.get("category_type", "expense")`. -/
def importCats (cats : List CatDict) : List (String × String) :=
  cats.foldl (fun m c => dictSet m c.name (c.category_type.getD "expense"))
    (DEFAULT_CATEGORIES.foldl (fun m p => dictSet m p.1 p.2) [])

/-- Outcome of `import_json`: on success the new store; on a raised exception
the store as the exception leaves it (Python mutates `self` in place, so a
failure after the category rebuild leaves that rebuild behind). -/
inductive ImportOutcome where
  | ok : LedgerStore → ImportOutcome
  | err : LedgerStore → ImportOutcome
deriving DecidableEq, Repr

/-- The store held by either outcome. -/
def ImportOutcome.state : ImportOutcome → LedgerStore
  | .ok s => s
  | .err s => s

/-- `LedgerStore.import_json`. `input = none` is a `json.loads` failure (the
store untouched); otherwise the categories are cleared and rebuilt first, and
only then the record list is parsed and, if every entry parses, assigned. -/
def import_json (input : Option Payload) (freshIds : Nat → String)
    (s : LedgerStore) : ImportOutcome :=
  match input with
  | none => .err s
  | some data =>
      let s1 : LedgerStore := { s with categories := importCats data.categories }
      match parseRecords freshIds 0 data.records with
      | none => .err s1
      | some rs => .ok { s1 with records := rs }

/-- `LedgerStore.export_json`: the payload written to disk — every record via
`to_dict`, the categories as `{name, category_type}` entries sorted by name
(`get_categories`). `json.dumps` followed by `json.loads` is the identity on
this structure, so reading the written file back yields exactly this payload. -/
def export_json (s : LedgerStore) : Payload :=
  { records := s.records.map to_dict,
    categories := (get_categories s).map (fun p => ⟨p.1, some p.2⟩) }

/-- The total-month index `12*year + (month-1)` of the first-of-month `base`
date used by `monthly_trend`. -/
def monthIndex (d : Date) : Int :=
  12 * (d.year : Int) + ((d.month : Int) - 1)

/-- The bucket key `i` months before `base`: the pair `(year, month)` whose
zero-padded rendering is the f-string key `f"{year:04d}-{month:02d}"`. The
source normalizes with `while month <= 0: month += 12; year -= 1`, which is
euclidean division of `month - 1 - i` by 12. -/
def trendKey (base : Date) (i : Nat) : Int × Int :=
  let t : Int := (base.month : Int) - 1 - (i : Int)
  ((base.year : Int) + t / 12, t % 12 + 1)

/-- `buckets[key] += v` guarded by `if key in buckets`: adjust the existing
entry, leave the dict unchanged when the key is absent. -/
def bucketAdd (m : List ((Int × Int) × ℚ)) (k : Int × Int) (v : ℚ) :
    List ((Int × Int) × ℚ) :=
  if (m.map Prod.fst).contains k then
    m.map (fun p => if p.1 = k then (p.1, p.2 + v) else p)
  else m

/-- The `"%Y-%m"` key of a record's date, as the `(year, month)` pair. -/
def recordKey (r : Record) : Int × Int :=
  ((r.date.year : Int), (r.date.month : Int))

/-- The signed contribution of a record to its month bucket:
`amount * (1 if income else -1)`. -/
def signedAmount (r : Record) : ℚ :=
  if r.category_type = "income" then r.amount else -r.amount

/-- Ascending lexicographic order on `(year, month)` keys, matching the string
sort of the zero-padded `"YYYY-MM"` keys (identical orders while every year in
play renders as exactly four digits). -/
def keyLE (a b : (Int × Int) × ℚ) : Bool :=
  decide (a.1.1 < b.1.1) || (a.1.1 == b.1.1 && decide (a.1.2 ≤ b.1.2))

/-- Strict lexicographic order on the `(year, month)` keys of trend entries,
used to state that the trend output is strictly sorted. -/
def keyLT (a b : (Int × Int) × ℚ) : Prop :=
  a.1.1 < b.1.1 ∨ (a.1.1 = b.1.1 ∧ a.1.2 < b.1.2)

instance : IsAntisymm ((Int × Int) × ℚ) keyLT :=
  ⟨fun a b h1 h2 => by
    unfold keyLT at h1 h2
    exfalso
    omega⟩

/-- `LedgerStore.monthly_trend`, with `today` (the value of
`dt.date.today()`) made explicit; `base = date(today.year, today.month, 1)`
only drops the day, so `today` is used directly. Builds `months` zero
buckets going back from the current month, adds every record whose
`"%Y-%m"` key hits a bucket, and returns the buckets sorted by key. -/
def monthly_trend (today : Date) (months : Nat) (s : LedgerStore) :
    List ((Int × Int) × ℚ) :=
  (s.records.foldl (fun m r => bucketAdd m (recordKey r) (signedAmount r))
      ((List.range months).foldl (fun m i =>
        if (m.map Prod.fst).contains (trendKey today i) then m
        else m ++ [(trendKey today i, 0)]) [])).mergeSort keyLE

/-- The states reachable from construction through the public mutating
operations. The hypotheses on `fresh` / `freshIds` model `uuid4()`: a
generated id is non-empty and distinct from every id in use. `add` and
`update` receive genuine `dt.date` values, hence valid dates. -/
inductive Reachable : LedgerStore → Prop where
  | init : Reachable initStore
  | add {s : LedgerStore} (fresh : String) (a : ℚ) (c t : String) (d : Date) :
      Reachable s → fresh ≠ "" → (∀ r ∈ s.records, r.id ≠ fresh) →
      d.valid = true → Reachable (add_record fresh a c t d s).2
  | update {s : LedgerStore} (rid : String) (a : ℚ) (c t : String) (d : Date) :
      Reachable s → d.valid = true → Reachable (update_record rid a c t d s).2
  | delete {s : LedgerStore} (rid : String) :
      Reachable s → Reachable (delete_record s rid)
  | addCat {s : LedgerStore} (name t : String) :
      Reachable s → Reachable (add_category s name t)
  | importJson {s : LedgerStore} (input : Option Payload)
      (freshIds : Nat → String) :
      Reachable s → (∀ i, freshIds i ≠ "") →
      Reachable (import_json input freshIds s).state

/-- Well-formedness facts every reachable store satisfies: record ids are
non-empty, record dates are valid calendar dates, category names are unique
(it is a dict), and every default category name is present. -/
def storeWF (s : LedgerStore) : Prop :=
  (∀ r ∈ s.records, r.id ≠ "" ∧ r.date.valid = true) ∧
  (s.categories.map Prod.fst).Nodup ∧
  (∀ p ∈ DEFAULT_CATEGORIES, (dictGet s.categories p.1).isSome = true)

/-- The spec-side net amount of a month bucket (claim wording): `0` plus, for
every record whose `"%Y-%m"` key equals `k`, `+amount` if income and
`-amount` if expense. Compared against what `monthly_trend` computes. -/
def specNetAmount (rs : List Record) (k : Int × Int) : ℚ :=
  (rs.filter (fun r => decide (recordKey r = k))).foldl
    (fun acc r => acc + signedAmount r) 0

/-- Fixture: a store with one expense record, used for concrete witnesses. -/
def foodStore : LedgerStore :=
  (add_record "uid-1" 10 "餐饮" "" ⟨2024, 1, 10⟩ initStore).2

/-- Fixture: a store whose category dict holds a non-default name. -/
def giftStore : LedgerStore := add_category initStore "礼物" "income"

/-- Fixture: a syntactically valid JSON payload whose single record entry has
the invalid calendar date `"2024-13-40"`. -/
def badPayload : Payload :=
  { records := [{ id := none, amount := some 1, category := some "餐饮",
                  category_type := none, date := some (2024, 13, 40) }],
    categories := [] }

/- ### Helper lemmas about the dict model and the store operations -/

theorem dictGet_cons {κ β : Type} [DecidableEq κ]
    (a : κ) (b : β) (rest : List (κ × β)) (k : κ) :
    dictGet ((a, b) :: rest) k = if a = k then some b else dictGet rest k :=
  rfl

theorem contains_keys_eq_isSome {κ β : Type} [DecidableEq κ]
    (m : List (κ × β)) (k : κ) :
    (m.map Prod.fst).contains k = (dictGet m k).isSome := by
  induction m with
  | nil => rfl
  | cons p rest ih =>
      obtain ⟨k1, v1⟩ := p
      by_cases h : k1 = k
      · subst h
        simp [dictGet_cons]
      · have hb : (k == k1) = false := by
          simp only [beq_eq_false_iff_ne]
          exact fun he => h he.symm
        simp [dictGet_cons, h, hb, ← ih]

theorem dictGet_append {κ β : Type} [DecidableEq κ]
    (m₁ m₂ : List (κ × β)) (k : κ) :
    dictGet (m₁ ++ m₂) k = (dictGet m₁ k).or (dictGet m₂ k) := by
  induction m₁ with
  | nil => simp [dictGet]
  | cons p rest ih =>
      obtain ⟨k1, v1⟩ := p
      by_cases h : k1 = k
      · simp [dictGet_cons, h]
      · simp [dictGet_cons, h, ih]

theorem dictGet_overwrite_ne {κ β : Type} [DecidableEq κ]
    (m : List (κ × β)) (k : κ) (v : β) (k' : κ) (hne : k' ≠ k) :
    dictGet (m.map (fun p => if p.1 = k then (k, v) else p)) k' =
      dictGet m k' := by
  induction m with
  | nil => rfl
  | cons p rest ih =>
      obtain ⟨k1, v1⟩ := p
      by_cases h : k1 = k
      · subst h
        have h2 : k1 ≠ k' := fun he => hne he.symm
        simp [dictGet_cons, h2, ih]
      · simp [dictGet_cons, h, ih]

theorem dictGet_overwrite_self {κ β : Type} [DecidableEq κ]
    (m : List (κ × β)) (k : κ) (v : β)
    (hc : (dictGet m k).isSome = true) :
    dictGet (m.map (fun p => if p.1 = k then (k, v) else p)) k = some v := by
  induction m with
  | nil => simp [dictGet] at hc
  | cons p rest ih =>
      obtain ⟨k1, v1⟩ := p
      by_cases h : k1 = k
      · subst h
        simp [dictGet_cons]
      · rw [dictGet_cons, if_neg h] at hc
        simp [dictGet_cons, h, ih hc]

/-- Python-dict `m[k] = v` then `m.get(k')`: the assigned key reads back the
new value, every other key is untouched. -/
theorem dictGet_dictSet {κ β : Type} [DecidableEq κ]
    (m : List (κ × β)) (k : κ) (v : β) (k' : κ) :
    dictGet (dictSet m k v) k' = if k' = k then some v else dictGet m k' := by
  unfold dictSet
  rw [contains_keys_eq_isSome]
  cases hval : dictGet m k with
  | some w =>
      simp only [hval, Option.isSome_some, if_true]
      by_cases hk : k' = k
      · rw [hk, dictGet_overwrite_self m k v (by simp [hval]), if_pos rfl]
      · rw [dictGet_overwrite_ne m k v k' hk, if_neg hk]
  | none =>
      simp only [hval, Option.isSome_none, Bool.false_eq_true, if_false]
      rw [dictGet_append]
      by_cases hk : k' = k
      · subst hk
        simp [hval, dictGet_cons]
      · have h2 : k ≠ k' := fun he => hk he.symm
        rw [if_neg hk]
        simp only [dictGet_cons, if_neg h2, dictGet]
        cases dictGet m k' <;> simp [Option.or]

theorem mem_keys_iff_isSome {κ β : Type} [DecidableEq κ]
    (m : List (κ × β)) (k : κ) :
    k ∈ m.map Prod.fst ↔ (dictGet m k).isSome = true := by
  induction m with
  | nil => simp [dictGet]
  | cons p rest ih =>
      obtain ⟨k1, v1⟩ := p
      by_cases h : k1 = k
      · subst h
        simp [dictGet_cons]
      · have h2 : ¬ k = k1 := fun he => h he.symm
        simp [dictGet_cons, h, h2, ih]

theorem dictSet_keys {κ β : Type} [DecidableEq κ]
    (m : List (κ × β)) (k : κ) (v : β) :
    (dictSet m k v).map Prod.fst =
      if (dictGet m k).isSome then m.map Prod.fst
      else m.map Prod.fst ++ [k] := by
  unfold dictSet
  rw [contains_keys_eq_isSome]
  cases hval : dictGet m k with
  | some w =>
      simp only [Option.isSome_some, if_true]
      rw [List.map_map]
      apply List.map_congr_left
      intro p hp
      by_cases h : p.1 = k
      · simp [Function.comp, h]
      · simp [Function.comp, h]
  | none => simp

theorem dictSet_nodup {κ β : Type} [DecidableEq κ]
    (m : List (κ × β)) (k : κ) (v : β)
    (h : (m.map Prod.fst).Nodup) : ((dictSet m k v).map Prod.fst).Nodup := by
  rw [dictSet_keys]
  cases hval : dictGet m k with
  | some w => simpa
  | none =>
      simp only [Option.isSome_none, Bool.false_eq_true, if_false]
      have hnot : k ∉ m.map Prod.fst := by
        rw [mem_keys_iff_isSome, hval]
        simp
      refine List.Nodup.append h (List.nodup_singleton _) ?_
      intro a ha hb
      simp only [List.mem_singleton] at hb
      subst hb
      exact hnot ha

theorem dictGet_foldl_dictSet {κ β : Type} [DecidableEq κ]
    (L : List (κ × β)) (init : List (κ × β)) (k : κ)
    (hnd : (L.map Prod.fst).Nodup) :
    dictGet (L.foldl (fun m p => dictSet m p.1 p.2) init) k =
      (dictGet L k).or (dictGet init k) := by
  induction L generalizing init with
  | nil => simp [dictGet]
  | cons p rest ih =>
      obtain ⟨k1, v1⟩ := p
      simp only [List.foldl_cons]
      have hnd' : (rest.map Prod.fst).Nodup := by
        simp only [List.map_cons, List.nodup_cons] at hnd
        exact hnd.2
      rw [ih (dictSet init k1 v1) hnd']
      rw [dictGet_dictSet]
      by_cases hk : k = k1
      · subst hk
        have : k ∉ rest.map Prod.fst := by
          simp only [List.map_cons, List.nodup_cons] at hnd
          exact hnd.1
        rw [mem_keys_iff_isSome] at this
        have hrest : dictGet rest k = none := by
          cases hval : dictGet rest k with
          | none => rfl
          | some w => rw [hval] at this; simp at this
        simp [hrest, dictGet_cons]
      · have hk2 : ¬ k1 = k := fun he => hk he.symm
        simp [dictGet_cons, hk, hk2]

theorem dictGet_foldl_isSome {κ β : Type} [DecidableEq κ]
    (L : List (κ × β)) (init : List (κ × β)) (k : κ)
    (h : (dictGet init k).isSome = true) :
    (dictGet (L.foldl (fun m p => dictSet m p.1 p.2) init) k).isSome = true := by
  induction L generalizing init with
  | nil => exact h
  | cons p rest ih =>
      simp only [List.foldl_cons]
      apply ih
      rw [dictGet_dictSet]
      by_cases hk : k = p.1
      · simp [hk]
      · simpa [hk]

theorem dictGet_foldl_nodup {κ β : Type} [DecidableEq κ]
    (L : List (κ × β)) (init : List (κ × β))
    (h : (init.map Prod.fst).Nodup) :
    ((L.foldl (fun m p => dictSet m p.1 p.2) init).map Prod.fst).Nodup := by
  induction L generalizing init with
  | nil => exact h
  | cons p rest ih =>
      simp only [List.foldl_cons]
      exact ih _ (dictSet_nodup _ _ _ h)

/-- The seeded category dict of a fresh store is literally the default list. -/
theorem initStore_categories : initStore.categories = DEFAULT_CATEGORIES := by
  decide

/-- Lookup in a dict with unique keys is invariant under permutation of the
underlying association list. -/
theorem dictGet_perm {κ β : Type} [DecidableEq κ]
    {l₁ l₂ : List (κ × β)} (hp : l₁.Perm l₂)
    (hnd : (l₁.map Prod.fst).Nodup) (k : κ) :
    dictGet l₁ k = dictGet l₂ k := by
  induction hp with
  | nil => rfl
  | cons x h ih =>
      obtain ⟨k1, v1⟩ := x
      rw [List.map_cons, List.nodup_cons] at hnd
      by_cases hk : k1 = k
      · simp [dictGet_cons, hk]
      · simp [dictGet_cons, hk, ih hnd.2]
  | swap x y l =>
      obtain ⟨k1, v1⟩ := x
      obtain ⟨k2, v2⟩ := y
      simp only [List.map_cons, List.nodup_cons, List.mem_cons] at hnd
      by_cases h1 : k2 = k
      · subst h1
        have h2 : k1 ≠ k2 := fun he => hnd.1 (Or.inl he.symm)
        have h2' : ¬ k2 = k2 → False := fun he => he rfl
        simp [dictGet_cons, h2]
      · by_cases h2 : k1 = k
        · simp [dictGet_cons, h1, h2]
        · simp [dictGet_cons, h1, h2]
  | trans h₁ h₂ ih₁ ih₂ =>
      rename_i l₁' l₂' l₃' 
      have hnd₂ : (l₂'.map Prod.fst).Nodup := ((h₁.map Prod.fst).nodup_iff).1 hnd
      exact (ih₁ hnd).trans (ih₂ hnd₂)

/-- Serialising a record and parsing it back is the identity, for a record
with a non-empty id and a valid date. -/
theorem from_dict_to_dict (fresh : String) (r : Record)
    (hid : r.id ≠ "") (hd : r.date.valid = true) :
    from_dict fresh (to_dict r) = some r := by
  have hiso : Date.fromIso r.date.toIso = some r.date := by
    unfold Date.fromIso Date.toIso
    simp [hd]
  unfold from_dict to_dict
  simp only [Option.bind_eq_bind, Option.some_bind, hiso]
  simp [hid]

/-- Parsing the serialisation of a well-formed record list yields it back
unchanged (any fresh-id supply, any starting index). -/
theorem parseRecords_map_to_dict (freshIds : Nat → String) (l : List Record)
    (i : Nat) (hwf : ∀ r ∈ l, r.id ≠ "" ∧ r.date.valid = true) :
    parseRecords freshIds i (l.map to_dict) = some l := by
  induction l generalizing i with
  | nil => rfl
  | cons r rest ih =>
      have hr := hwf r (by simp)
      have hrest : ∀ x ∈ rest, x.id ≠ "" ∧ x.date.valid = true :=
        fun x hx => hwf x (by simp [hx])
      simp only [List.map_cons, parseRecords]
      rw [from_dict_to_dict _ r hr.1 hr.2, ih (i + 1) hrest]

/-- Every record produced by `from_dict` has a non-empty id (given a
non-empty fresh uuid) and a valid date. -/
theorem from_dict_wf (fresh : String) (d : RecordDict) (r : Record)
    (hfresh : fresh ≠ "") (h : from_dict fresh d = some r) :
    r.id ≠ "" ∧ r.date.valid = true := by
  unfold from_dict at h
  cases ha : d.amount with
  | none => simp [ha] at h
  | some a =>
  cases hcat : d.category with
  | none => simp [ha, hcat] at h
  | some c =>
  cases hdt : d.date with
  | none => simp [ha, hcat, hdt] at h
  | some t =>
  cases hiso : Date.fromIso t with
  | none => simp [ha, hcat, hdt, hiso] at h
  | some dt =>
      simp only [ha, hcat, hdt, hiso, Option.bind_eq_bind, Option.some_bind] at h
      injection h with h
      subst h
      constructor
      · cases hi : d.id with
        | none => simpa [hi] using hfresh
        | some i =>
            by_cases he : i = ""
            · simpa [hi, he] using hfresh
            · simp [hi, he]
      · unfold Date.fromIso at hiso
        by_cases hv : (⟨t.1, t.2.1, t.2.2⟩ : Date).valid = true
        · simp only [hv, if_true] at hiso
          injection hiso with hiso
          subst hiso
          simpa using hv
        · simp only [hv, if_false] at hiso
          cases hiso

/-- Well-formedness of every record parsed during import. -/
theorem parseRecords_wf (freshIds : Nat → String) (ds : List RecordDict)
    (i : Nat) (rs : List Record) (hfresh : ∀ j, freshIds j ≠ "")
    (h : parseRecords freshIds i ds = some rs) :
    ∀ r ∈ rs, r.id ≠ "" ∧ r.date.valid = true := by
  induction ds generalizing i rs with
  | nil =>
      unfold parseRecords at h
      injection h with h
      subst h
      intro r hr
      cases hr
  | cons d rest ih =>
      unfold parseRecords at h
      cases hfd : from_dict (freshIds i) d with
      | none => rw [hfd] at h; cases h
      | some r0 =>
          rw [hfd] at h
          cases hrest : parseRecords freshIds (i + 1) rest with
          | none => rw [hrest] at h; cases h
          | some rs0 =>
              rw [hrest] at h
              injection h with h
              subst h
              intro r hr
              rcases List.mem_cons.1 hr with hr | hr
              · subst hr
                exact from_dict_wf _ d r (hfresh i) hfd
              · exact ih (i + 1) rs0 hrest r hr

/-- `find_record` finds the first matching record: `updateFirst` then rewrites
exactly that list position. -/
theorem updateFirst_of_find (l : List Record) (rid : String) (r : Record)
    (h : l.find? (fun x => x.id == rid) = some r) :
    ∃ i, ∃ hi : i < l.length,
      l.get ⟨i, hi⟩ = r ∧ r.id = rid ∧
      ∀ f : Record → Record, updateFirst rid f l = l.set i (f r) := by
  induction l with
  | nil => cases h
  | cons x rest ih =>
      by_cases hx : x.id = rid
      · have : (x :: rest).find? (fun y => y.id == rid) = some x := by
          rw [List.find?_cons_of_pos]
          simpa using hx
        rw [this] at h
        injection h with h
        subst h
        refine ⟨0, by simp, by simp, hx, ?_⟩
        intro f
        simp [updateFirst, hx]
      · rw [List.find?_cons_of_neg rest (by simpa using hx)] at h
        obtain ⟨i, hi, hget, hrid, hupd⟩ := ih h
        refine ⟨i + 1, by simpa using Nat.succ_lt_succ hi, by simpa using hget,
          hrid, ?_⟩
        intro f
        simp [updateFirst, hx, hupd f]

/-- `add_category` never touches the record list. -/
theorem add_category_records (s : LedgerStore) (name t : String) :
    (add_category s name t).records = s.records := by
  unfold add_category
  by_cases h : name = "" <;> simp [h]

/-- `add_category` keeps category keys unique. -/
theorem add_category_nodup (s : LedgerStore) (name t : String)
    (h : (s.categories.map Prod.fst).Nodup) :
    ((add_category s name t).categories.map Prod.fst).Nodup := by
  unfold add_category
  by_cases hn : name = ""
  · simpa [hn]
  · simpa [hn] using dictSet_nodup s.categories name _ h

/-- `add_category` never removes a category name. -/
theorem add_category_isSome (s : LedgerStore) (name t k : String)
    (h : (dictGet s.categories k).isSome = true) :
    (dictGet (add_category s name t).categories k).isSome = true := by
  unfold add_category
  by_cases hn : name = ""
  · simpa [hn]
  · simp only [hn, if_false]
    rw [dictGet_dictSet]
    by_cases hk : k = name
    · simp [hk]
    · simpa [hk]

/-- Every element of `updateFirst rid f l` is an original element or the
image of the rewritten one. -/
theorem mem_updateFirst (rid : String) (f : Record → Record)
    (l : List Record) (x : Record) (hx : x ∈ updateFirst rid f l) :
    x ∈ l ∨ ∃ r ∈ l, x = f r := by
  induction l with
  | nil => cases hx
  | cons y rest ih =>
      unfold updateFirst at hx
      by_cases hy : y.id = rid
      · rw [if_pos hy] at hx
        rcases List.mem_cons.1 hx with hx | hx
        · exact Or.inr ⟨y, by simp, hx⟩
        · exact Or.inl (List.mem_cons_of_mem _ hx)
      · rw [if_neg hy] at hx
        rcases List.mem_cons.1 hx with hx | hx
        · exact Or.inl (by simp [hx])
        · rcases ih hx with h | ⟨r, hr, he⟩
          · exact Or.inl (List.mem_cons_of_mem _ h)
          · exact Or.inr ⟨r, List.mem_cons_of_mem _ hr, he⟩

/-- Rewriting `importCats` as a fold of plain `dictSet` over name/type pairs,
starting from the freshly seeded default dict. -/
theorem importCats_eq (cats : List CatDict) :
    importCats cats =
      (cats.map (fun c => (c.name, c.category_type.getD "expense"))).foldl
        (fun m p => dictSet m p.1 p.2) initStore.categories := by
  unfold importCats
  rw [List.foldl_map]
  rfl

/-- The rebuilt category dict of an import has unique keys. -/
theorem importCats_nodup (cats : List CatDict) :
    ((importCats cats).map Prod.fst).Nodup := by
  rw [importCats_eq]
  apply dictGet_foldl_nodup
  rw [initStore_categories]
  decide

/-- The rebuilt category dict of an import keeps every default name. -/
theorem importCats_defaults (cats : List CatDict) :
    ∀ p ∈ DEFAULT_CATEGORIES, (dictGet (importCats cats) p.1).isSome = true := by
  intro p hp
  rw [importCats_eq]
  apply dictGet_foldl_isSome
  revert hp
  rw [initStore_categories]
  revert p
  decide

/-- Every reachable store is well formed: non-empty record ids, valid record
dates, unique category names, and all default category names present. -/
theorem reachable_wf (s : LedgerStore) (h : Reachable s) : storeWF s := by
  induction h with
  | init =>
      refine ⟨by simp [initStore], ?_, ?_⟩
      · rw [initStore_categories]; decide
      · rw [initStore_categories]; decide
  | add fresh a c t d hr hfresh hfree hd ih =>
      obtain ⟨ihrec, ihnd, ihdef⟩ := ih
      refine ⟨?_, ?_, ?_⟩
      · intro r hrm
        rw [show (add_record fresh a c t d _).2.records = _ ++ [_] from
              add_category_records _ _ _] at hrm
        rcases List.mem_append.1 hrm with hm | hm
        · exact ihrec r hm
        · rcases List.mem_singleton.1 hm with rfl
          exact ⟨hfresh, hd⟩
      · exact add_category_nodup _ _ _ ihnd
      · intro p hp
        exact add_category_isSome _ _ _ _ (ihdef p hp)
  | update rid a c t d hr hd ih =>
      obtain ⟨ihrec, ihnd, ihdef⟩ := ih
      rename_i s0
      unfold update_record
      cases hf : find_record s0 rid with
      | none => exact ⟨ihrec, ihnd, ihdef⟩
      | some r0 =>
          refine ⟨?_, add_category_nodup _ _ _ ihnd,
            fun p hp => add_category_isSome _ _ _ _ (ihdef p hp)⟩
          intro r hrm
          rw [add_category_records] at hrm
          simp only at hrm
          rcases mem_updateFirst _ _ _ _ hrm with hm | ⟨r1, hr1, he⟩
          · exact ihrec r hm
          · subst he
            have : r0 ∈ s0.records := List.mem_of_find?_eq_some hf
            exact ⟨(ihrec r0 this).1, hd⟩
  | delete rid hr ih =>
      obtain ⟨ihrec, ihnd, ihdef⟩ := ih
      exact ⟨fun r hrm => ihrec r (List.mem_of_mem_filter hrm), ihnd, ihdef⟩
  | addCat name t hr ih =>
      obtain ⟨ihrec, ihnd, ihdef⟩ := ih
      refine ⟨?_, add_category_nodup _ _ _ ihnd,
        fun p hp => add_category_isSome _ _ _ _ (ihdef p hp)⟩
      intro r hrm
      rw [add_category_records] at hrm
      exact ihrec r hrm
  | importJson input freshIds hr hfresh ih =>
      obtain ⟨ihrec, ihnd, ihdef⟩ := ih
      cases input with
      | none => exact ⟨ihrec, ihnd, ihdef⟩
      | some data =>
          simp only [import_json]
          cases hp : parseRecords freshIds 0 data.records with
          | none =>
              simp only [ImportOutcome.state]
              exact ⟨ihrec, importCats_nodup _, importCats_defaults _⟩
          | some rs =>
              simp only [ImportOutcome.state]
              exact ⟨parseRecords_wf freshIds data.records 0 rs hfresh hp,
                importCats_nodup _, importCats_defaults _⟩

/-- Folding `+` from an accumulator equals the accumulator plus the fold
from zero (Python `sum` semantics). -/
theorem foldl_add_from {α : Type} (f : α → ℚ) (l : List α) (a : ℚ) :
    l.foldl (fun acc r => acc + f r) a = a + l.foldl (fun acc r => acc + f r) 0 := by
  induction l generalizing a with
  | nil => simp
  | cons x rest ih =>
      simp only [List.foldl_cons]
      rw [ih (a + f x), ih (0 + f x)]
      ring

/-- The left fold of `+` over mapped amounts is the list sum. -/
theorem foldl_add_eq_sum {α : Type} (f : α → ℚ) (l : List α) :
    l.foldl (fun acc r => acc + f r) 0 = (l.map f).sum := by
  induction l with
  | nil => simp
  | cons x rest ih =>
      simp only [List.foldl_cons, List.map_cons, List.sum_cons]
      rw [foldl_add_from, ih]
      ring

/- ### C10 -/

/-- C10: search called with `category = ""` behaves exactly as if the category
filter were absent — the Python truthiness test `if category and ...` skips
the comparison for the empty string, so no record is ever excluded by an
empty-string category filter (and hence records whose category is `""` can
never be selected by it). -/
theorem search_empty_category_is_no_filter (s : LedgerStore)
    (sd ed : Option Date) (mi ma : Option ℚ) :
    search_records s sd ed (some "") mi ma = search_records s sd ed none mi ma := by
  unfold search_records
  congr 1

/- ### C5 -/

/-- C5: `summary(start, end)` returns income equal to the sum of amounts of
the income records of `search(start, end)`, expense the sum over its expense
records, and balance exactly `income - expense`; on an empty record set it is
`{0, 0, 0}`. -/
theorem summary_sums_search (s : LedgerStore) (start stop : Option Date) :
    (summary s start stop).income =
      (((search_records s start stop none none none).filter
          (fun r => r.category_type == "income")).map (fun r => r.amount)).sum ∧
    (summary s start stop).expense =
      (((search_records s start stop none none none).filter
          (fun r => r.category_type == "expense")).map (fun r => r.amount)).sum ∧
    (summary s start stop).balance =
      (summary s start stop).income - (summary s start stop).expense ∧
    (s.records = [] → summary s start stop = ⟨0, 0, 0⟩) := by
  refine ⟨?_, ?_, rfl, ?_⟩
  · unfold summary
    simp only
    rw [foldl_add_eq_sum]
  · unfold summary
    simp only
    rw [foldl_add_eq_sum]
  · intro hs
    unfold summary search_records
    rw [hs]
    simp [Summary.mk.injEq]

/-- Witness for C5 at a concrete input: the empty store. -/
theorem summary_sums_search_witness :
    (summary initStore none none).income =
      (((search_records initStore none none none none none).filter
          (fun r => r.category_type == "income")).map (fun r => r.amount)).sum ∧
    (summary initStore none none).expense =
      (((search_records initStore none none none none none).filter
          (fun r => r.category_type == "expense")).map (fun r => r.amount)).sum ∧
    (summary initStore none none).balance =
      (summary initStore none none).income - (summary initStore none none).expense ∧
    (initStore.records = [] → summary initStore none none = ⟨0, 0, 0⟩) :=
  summary_sums_search initStore none none

/- ### C2 -/

/-- C2 counterexample: the store performs no amount validation. Adding a
record with amount `-5` to a fresh store succeeds (no `InvalidAmount`
failure exists in the code) and stores the negative amount, in a state
reachable through the public operations. -/
theorem negative_amount_stored_cex :
    (add_record "id-1" (-5) "餐饮" "" ⟨2024, 1, 15⟩ initStore).2.records =
      [{ id := "id-1", amount := -5, category := "餐饮",
         category_type := "expense", date := ⟨2024, 1, 15⟩ }] ∧
    Reachable (add_record "id-1" (-5) "餐饮" "" ⟨2024, 1, 15⟩ initStore).2 ∧
    ((-5 : ℚ) < 0) := by
  refine ⟨by decide, ?_, by norm_num⟩
  exact Reachable.add "id-1" (-5) "餐饮" "" ⟨2024, 1, 15⟩ Reachable.init
    (by decide) (by intro r hr; simp [initStore] at hr) (by decide)

/-- C2 amended: the store itself never validates amounts. `add_record`
appends a record carrying exactly the supplied amount (negative included),
and any record returned by `update_record` carries exactly the supplied
amount; rejecting `amount < 0` is left to the (excluded) UI layer. -/
theorem store_accepts_any_amount (s : LedgerStore) (fresh : String) (a : ℚ)
    (c t : String) (d : Date) (rid : String) (r : Record)
    (hup : (update_record rid a c t d s).1 = some r) :
    (add_record fresh a c t d s).1.amount = a ∧
    (add_record fresh a c t d s).2.records =
      s.records ++ [(add_record fresh a c t d s).1] ∧
    r.amount = a := by
  refine ⟨rfl, ?_, ?_⟩
  · unfold add_record
    simp only
    rw [add_category_records]
  · unfold update_record at hup
    cases hf : find_record s rid with
    | none => rw [hf] at hup; cases hup
    | some r0 =>
        rw [hf] at hup
        simp only at hup
        injection hup with hup
        subst hup
        rfl

/-- Witness for C2's amended theorem at a concrete input. -/
theorem store_accepts_any_amount_witness :
    (add_record "id-2" (-3) "餐饮" "" ⟨2024, 2, 2⟩ foodStore).1.amount = -3 ∧
    (add_record "id-2" (-3) "餐饮" "" ⟨2024, 2, 2⟩ foodStore).2.records =
      foodStore.records ++ [(add_record "id-2" (-3) "餐饮" "" ⟨2024, 2, 2⟩ foodStore).1] ∧
    ({ id := "uid-1", amount := -3, category := "餐饮",
       category_type := "expense", date := ⟨2024, 2, 2⟩ } : Record).amount = -3 :=
  store_accepts_any_amount foodStore "id-2" (-3) "餐饮" "" ⟨2024, 2, 2⟩ "uid-1"
    { id := "uid-1", amount := -3, category := "餐饮",
      category_type := "expense", date := ⟨2024, 2, 2⟩ } (by decide)

/- ### C9 -/

/-- C9: the default category set has 8 entries (2 income, 6 expense), and in
every reachable store state every default category name is still present in
the category dict (operations may rewrite a default name's type, never
remove the name). -/
theorem default_categories_always_present (s : LedgerStore)
    (h : Reachable s) :
    DEFAULT_CATEGORIES.length = 8 ∧
    (DEFAULT_CATEGORIES.filter (fun p => p.2 == "income")).length = 2 ∧
    (DEFAULT_CATEGORIES.filter (fun p => p.2 == "expense")).length = 6 ∧
    ∀ p ∈ DEFAULT_CATEGORIES, (dictGet s.categories p.1).isSome = true :=
  ⟨by decide, by decide, by decide, (reachable_wf s h).2.2⟩

/-- Witness for C9 at a concrete reachable state. -/
theorem default_categories_always_present_witness :
    DEFAULT_CATEGORIES.length = 8 ∧
    (DEFAULT_CATEGORIES.filter (fun p => p.2 == "income")).length = 2 ∧
    (DEFAULT_CATEGORIES.filter (fun p => p.2 == "expense")).length = 6 ∧
    ∀ p ∈ DEFAULT_CATEGORIES, (dictGet initStore.categories p.1).isSome = true :=
  default_categories_always_present initStore Reachable.init

/- ### C1 -/

/-- C1 counterexample: import is not atomic on the category mapping. On a
store holding the non-default category `礼物`, importing a parseable file
whose single record has the invalid date `2024-13-40` fails — but the
category dict has already been cleared and rebuilt, losing `礼物`, while the
records are left unchanged. -/
theorem import_not_atomic_cex :
    import_json (some badPayload) (fun _ => "fresh-1") giftStore =
      .err { records := giftStore.records,
             categories := importCats badPayload.categories } ∧
    Date.fromIso (2024, 13, 40) = none ∧
    dictGet giftStore.categories "礼物" = some "income" ∧
    dictGet (import_json (some badPayload) (fun _ => "fresh-1")
        giftStore).state.categories "礼物" = none ∧
    (import_json (some badPayload) (fun _ => "fresh-1")
        giftStore).state.categories ≠ giftStore.categories := by
  refine ⟨by decide, by decide, by decide, by decide, by decide⟩

/-- C1 amended: when `json.loads` itself fails the store is untouched; but
when the JSON parses and a record entry is malformed (missing required field
or invalid date), the import fails with the records unchanged while the
category dict has already been reset to the defaults overridden by the
file's category entries. -/
theorem import_failure_states (s : LedgerStore) (freshIds : Nat → String)
    (data : Payload) (hbad : parseRecords freshIds 0 data.records = none) :
    import_json none freshIds s = .err s ∧
    import_json (some data) freshIds s =
      .err { records := s.records, categories := importCats data.categories } := by
  constructor
  · rfl
  · simp only [import_json, hbad]

/-- Witness for C1's amended theorem at a concrete failing input. -/
theorem import_failure_states_witness :
    import_json none (fun _ => "fresh-1") giftStore = .err giftStore ∧
    import_json (some badPayload) (fun _ => "fresh-1") giftStore =
      .err { records := giftStore.records,
             categories := importCats badPayload.categories } :=
  import_failure_states giftStore (fun _ => "fresh-1") badPayload (by decide)

/- ### C7 -/

/-- C7: `update_record` with an absent id returns `None` and leaves the store
untouched; with a present id it returns the record with that list position's
id (kept) and the four supplied fields resolved as in `add_record`, rewrites
exactly that list position in place, and upserts the category dict exactly
as `add_category` with the resolved type does. -/
theorem update_record_semantics (s : LedgerStore) (rid : String) (a : ℚ)
    (c t : String) (d : Date) :
    (find_record s rid = none → update_record rid a c t d s = (none, s)) ∧
    (∀ r0, find_record s rid = some r0 →
      ∃ i, ∃ hi : i < s.records.length,
        (s.records.get ⟨i, hi⟩).id = rid ∧
        (update_record rid a c t d s).1 =
          some { id := (s.records.get ⟨i, hi⟩).id, amount := a, category := c,
                 category_type := resolveType s c t, date := d } ∧
        (update_record rid a c t d s).2.records =
          s.records.set i
            { id := (s.records.get ⟨i, hi⟩).id, amount := a,
              category := c, category_type := resolveType s c t, date := d } ∧
        (update_record rid a c t d s).2.categories =
          (add_category s c (resolveType s c t)).categories) := by
  constructor
  · intro hf
    unfold update_record
    rw [hf]
  · intro r0 hf
    obtain ⟨i, hi, hget, hrid, hupd⟩ := updateFirst_of_find s.records rid r0 hf
    refine ⟨i, hi, by rw [hget]; exact hrid, ?_, ?_, ?_⟩
    · unfold update_record
      rw [hf]
      simp only [hget]
    · unfold update_record
      rw [hf]
      simp only
      rw [add_category_records]
      simp only [hupd, hget]
    · unfold update_record
      rw [hf]
      simp only
      unfold add_category
      by_cases hc : c = "" <;> simp [hc]

/-- Witness for C7 at a concrete input (present id). -/
theorem update_record_semantics_witness :
    ∃ i, ∃ hi : i < foodStore.records.length,
      (foodStore.records.get ⟨i, hi⟩).id = "uid-1" ∧
      (update_record "uid-1" 7 "交通" "" ⟨2024, 3, 3⟩ foodStore).1 =
        some { id := (foodStore.records.get ⟨i, hi⟩).id, amount := 7,
               category := "交通",
               category_type := resolveType foodStore "交通" "",
               date := ⟨2024, 3, 3⟩ } ∧
      (update_record "uid-1" 7 "交通" "" ⟨2024, 3, 3⟩ foodStore).2.records =
        foodStore.records.set i
          { id := (foodStore.records.get ⟨i, hi⟩).id,
            amount := 7, category := "交通",
            category_type := resolveType foodStore "交通" "",
            date := ⟨2024, 3, 3⟩ } ∧
      (update_record "uid-1" 7 "交通" "" ⟨2024, 3, 3⟩ foodStore).2.categories =
        (add_category foodStore "交通"
          (resolveType foodStore "交通" "")).categories :=
  (update_record_semantics foodStore "uid-1" 7 "交通" "" ⟨2024, 3, 3⟩).2
    { id := "uid-1", amount := 10, category := "餐饮",
      category_type := "expense", date := ⟨2024, 1, 10⟩ } (by decide)

/- ### C8 -/

/-- C8: for valid inputs (non-empty category name, a fresh uuid — non-empty
and distinct from every id in use, mirroring `uuid4()` — and a category dict
whose stored types are the non-empty strings `"income"`/`"expense"`),
`add_record` returns a record with a non-empty id distinct from every
existing record's id; `find_record` on that id returns exactly that record;
its fields are exactly the supplied ones, the type resolved from the category
dict (else `"expense"`) when `category_type` is empty; and the category dict
is upserted with the resolved type (last-write-wins). -/
theorem add_record_semantics (s : LedgerStore) (fresh : String) (a : ℚ)
    (c t : String) (d : Date)
    (hfresh : fresh ≠ "") (hfree : ∀ r ∈ s.records, r.id ≠ fresh)
    (hc : c ≠ "")
    (hwf : ∀ v, dictGet s.categories c = some v → v ≠ "") :
    (add_record fresh a c t d s).1.id ≠ "" ∧
    (∀ r ∈ s.records, r.id ≠ (add_record fresh a c t d s).1.id) ∧
    find_record (add_record fresh a c t d s).2
        (add_record fresh a c t d s).1.id =
      some (add_record fresh a c t d s).1 ∧
    (add_record fresh a c t d s).1.amount = a ∧
    (add_record fresh a c t d s).1.category = c ∧
    (add_record fresh a c t d s).1.date = d ∧
    (add_record fresh a c t d s).1.category_type =
      (if t = "" then (dictGet s.categories c).getD "expense" else t) ∧
    dictGet (add_record fresh a c t d s).2.categories c =
      some (add_record fresh a c t d s).1.category_type := by
  have hrt : resolveType s c t ≠ "" := by
    unfold resolveType
    by_cases ht : t = ""
    · simp only [ht, if_true]
      cases hv : dictGet s.categories c with
      | none => simp
      | some v => simpa using hwf v hv
    · simp [ht]
  refine ⟨hfresh, hfree, ?_, rfl, rfl, rfl, rfl, ?_⟩
  · unfold find_record
    rw [show (add_record fresh a c t d s).2.records =
          s.records ++ [(add_record fresh a c t d s).1] from
        add_category_records _ _ _]
    rw [List.find?_append]
    have hleft : s.records.find?
        (fun r => r.id == (add_record fresh a c t d s).1.id) = none := by
      rw [List.find?_eq_none]
      intro r hr
      simpa using hfree r hr
    rw [hleft]
    simp [add_record]
  · show dictGet (add_category _ c (resolveType s c t)).categories c = _
    unfold add_category
    rw [if_neg hc]
    simp only [if_neg hrt]
    rw [dictGet_dictSet]
    simp [add_record]

/-- Witness for C8 at a concrete input. -/
theorem add_record_semantics_witness :
    (add_record "uid-9" 42 "餐饮" "" ⟨2024, 6, 1⟩ foodStore).1.id ≠ "" ∧
    (∀ r ∈ foodStore.records,
      r.id ≠ (add_record "uid-9" 42 "餐饮" "" ⟨2024, 6, 1⟩ foodStore).1.id) ∧
    find_record (add_record "uid-9" 42 "餐饮" "" ⟨2024, 6, 1⟩ foodStore).2
        (add_record "uid-9" 42 "餐饮" "" ⟨2024, 6, 1⟩ foodStore).1.id =
      some (add_record "uid-9" 42 "餐饮" "" ⟨2024, 6, 1⟩ foodStore).1 ∧
    (add_record "uid-9" 42 "餐饮" "" ⟨2024, 6, 1⟩ foodStore).1.amount = 42 ∧
    (add_record "uid-9" 42 "餐饮" "" ⟨2024, 6, 1⟩ foodStore).1.category = "餐饮" ∧
    (add_record "uid-9" 42 "餐饮" "" ⟨2024, 6, 1⟩ foodStore).1.date = ⟨2024, 6, 1⟩ ∧
    (add_record "uid-9" 42 "餐饮" "" ⟨2024, 6, 1⟩ foodStore).1.category_type =
      (if ("" : String) = "" then
        (dictGet foodStore.categories "餐饮").getD "expense" else "") ∧
    dictGet (add_record "uid-9" 42 "餐饮" "" ⟨2024, 6, 1⟩ foodStore).2.categories
        "餐饮" =
      some (add_record "uid-9" 42 "餐饮" "" ⟨2024, 6, 1⟩ foodStore).1.category_type :=
  add_record_semantics foodStore "uid-9" 42 "餐饮" "" ⟨2024, 6, 1⟩
    (by decide) (by decide)
    (by decide)
    (by
      intro v hv
      rw [show dictGet foodStore.categories "餐饮" = some "expense" from by decide]
        at hv
      injection hv with hv
      subst hv
      decide)

/- ### Date-order lemmas for the search ordering -/

theorem date_lt_true_iff (a b : Date) : Date.lt a b = true ↔
    (a.year < b.year ∨ (a.year = b.year ∧
      (a.month < b.month ∨ (a.month = b.month ∧ a.day < b.day)))) := by
  unfold Date.lt
  simp [Bool.or_eq_true, Bool.and_eq_true, decide_eq_true_eq, beq_iff_eq]

theorem date_lt_asymm (a b : Date) (h : Date.lt a b = true) :
    Date.lt b a = false := by
  rw [date_lt_true_iff] at h
  cases hba : Date.lt b a with
  | false => rfl
  | true => rw [date_lt_true_iff] at hba; omega

theorem date_not_lt_trans (a b c : Date) (h1 : Date.lt a b = false)
    (h2 : Date.lt b c = false) : Date.lt a c = false := by
  cases h : Date.lt a c with
  | false => rfl
  | true =>
      rw [date_lt_true_iff] at h
      rw [Bool.eq_false_iff, Ne, date_lt_true_iff] at h1 h2
      omega

/- ### C3 -/

/-- C3 counterexample: with the category filter supplied as the empty string,
search does not perform an exact category match — on a store whose only
record has category `餐饮`, `search(category="")` returns that record instead
of the empty result an exact match against `""` would give. -/
theorem search_empty_category_filter_cex :
    search_records foodStore none none (some "") none none =
      [{ id := "uid-1", amount := 10, category := "餐饮",
         category_type := "expense", date := ⟨2024, 1, 10⟩ }] ∧
    ("餐饮" : String) ≠ "" := by
  constructor
  · unfold search_records
    rw [show foodStore.records.filter
          (searchKeep none none (some "") none none) =
        [{ id := "uid-1", amount := 10, category := "餐饮",
           category_type := "expense", date := ⟨2024, 1, 10⟩ }] from by decide]
    exact List.mergeSort_singleton _
  · decide

/-- C3 amended: search returns exactly (a permutation of) the records meeting
all supplied constraints — `date >= start`, `date <= end`, `amount >= min`,
`amount <= max` (inclusive), exact case-sensitive category match — where an
absent parameter and likewise an empty-string category impose no constraint;
the result is sorted descending by date. -/
theorem search_records_semantics (s : LedgerStore)
    (sd ed : Option Date) (co : Option String) (mi ma : Option ℚ) :
    (search_records s sd ed co mi ma).Perm
      (s.records.filter (fun r =>
        (match sd with
         | none => true
         | some x => !(Date.lt r.date x)) &&
        (match ed with
         | none => true
         | some x => !(Date.lt x r.date)) &&
        (match co with
         | none => true
         | some c => c == "" || r.category == c) &&
        (match mi with
         | none => true
         | some m => !(decide (r.amount < m))) &&
        (match ma with
         | none => true
         | some m => !(decide (m < r.amount))))) ∧
    List.Pairwise (fun x y => Date.lt x.date y.date = false)
      (search_records s sd ed co mi ma) := by
  constructor
  · exact List.mergeSort_perm _ _
  · have hs : List.Pairwise (fun x y : Record => (!(Date.lt x.date y.date)) = true)
        (search_records s sd ed co mi ma) := by
      apply List.sorted_mergeSort
      · intro x y z hxy hyz
        simp only [Bool.not_eq_true'] at hxy hyz ⊢
        exact date_not_lt_trans _ _ _ hxy hyz
      · intro x y
        cases hxy : Date.lt x.date y.date with
        | false => simp
        | true => simp [date_lt_asymm _ _ hxy]
    exact hs.imp (fun h => by simpa [Bool.not_eq_true'] using h)

/- ### C4 -/

/-- C4: export followed by import (into any store — import replaces state
wholesale) reproduces the original records exactly and a category mapping
equal, as a map, to the original. Holds for every reachable store state. -/
theorem export_import_roundtrip (s s₂ : LedgerStore) (freshIds : Nat → String)
    (h : Reachable s) :
    ∃ s' : LedgerStore,
      import_json (some (export_json s)) freshIds s₂ = .ok s' ∧
      s'.records = s.records ∧
      ∀ k, dictGet s'.categories k = dictGet s.categories k := by
  obtain ⟨hrec, hnd, hdef⟩ := reachable_wf s h
  have hrecs : parseRecords freshIds 0 (s.records.map to_dict) = some s.records :=
    parseRecords_map_to_dict freshIds s.records 0 hrec
  refine ⟨{ records := s.records,
            categories := importCats (export_json s).categories }, ?_, rfl, ?_⟩
  · simp only [import_json]
    rw [show (export_json s).records = s.records.map to_dict from rfl, hrecs]
  · intro k
    have hperm : (get_categories s).Perm s.categories :=
      List.mergeSort_perm _ _
    have hndkeys : ((get_categories s).map Prod.fst).Nodup :=
      ((hperm.map Prod.fst).nodup_iff).mpr hnd
    have hcats : ((export_json s).categories).map
        (fun c => (c.name, c.category_type.getD "expense")) = get_categories s := by
      show ((get_categories s).map _).map _ = _
      rw [List.map_map]
      have hco : ((fun c : CatDict => (c.name, c.category_type.getD "expense")) ∘
          (fun p : String × String => (⟨p.1, some p.2⟩ : CatDict))) = id := by
        funext p
        simp [Function.comp]
      rw [hco, List.map_id]
    rw [importCats_eq, hcats]
    rw [dictGet_foldl_dictSet _ _ k hndkeys]
    rw [dictGet_perm hperm hndkeys k]
    cases hv : dictGet s.categories k with
    | some v => simp [Option.or]
    | none =>
        simp only [Option.or]
        cases hd0 : dictGet initStore.categories k with
        | none => simp
        | some w =>
            exfalso
            have hk : k ∈ initStore.categories.map Prod.fst :=
              (mem_keys_iff_isSome _ _).2 (by simp [hd0])
            rw [initStore_categories] at hk
            obtain ⟨p, hp, hpk⟩ := List.mem_map.1 hk
            have hds := hdef p hp
            rw [hpk, hv] at hds
            simp at hds

/-- Witness for C4 at a concrete reachable state. -/
theorem export_import_roundtrip_witness :
    ∃ s' : LedgerStore,
      import_json (some (export_json initStore)) (fun _ => "u") initStore =
        .ok s' ∧
      s'.records = initStore.records ∧
      ∀ k, dictGet s'.categories k = dictGet initStore.categories k :=
  export_import_roundtrip initStore initStore (fun _ => "u") Reachable.init

/- ### Trend lemmas for C6 -/

/-- `buckets[key] += v` guarded by `if key in buckets` is the unconditional
per-entry adjustment: absent keys mean no entry matches, so the map is the
identity. -/
theorem bucketAdd_eq_map (m : List ((Int × Int) × ℚ)) (k : Int × Int) (v : ℚ) :
    bucketAdd m k v = m.map (fun p => if p.1 = k then (p.1, p.2 + v) else p) := by
  unfold bucketAdd
  by_cases hc : (m.map Prod.fst).contains k
  · rw [if_pos hc]
  · rw [if_neg hc]
    have hno : ∀ p ∈ m, p.1 ≠ k := by
      intro p hp he
      exact hc (List.elem_iff.2 (he ▸ List.mem_map_of_mem Prod.fst hp))
    rw [List.map_congr_left (fun p hp => if_neg (hno p hp))]
    exact (List.map_id m).symm

theorem specNetAmount_nil (k : Int × Int) : specNetAmount [] k = 0 := rfl

theorem specNetAmount_cons (r : Record) (rest : List Record) (k : Int × Int) :
    specNetAmount (r :: rest) k =
      (if recordKey r = k then signedAmount r else 0) + specNetAmount rest k := by
  unfold specNetAmount
  by_cases hk : recordKey r = k
  · rw [List.filter_cons_of_pos (by simp [hk])]
    simp only [List.foldl_cons, if_pos hk]
    rw [foldl_add_from signedAmount]
    ring_nf
  · rw [List.filter_cons_of_neg (by simp [hk])]
    simp [hk]

/-- Folding all records into the buckets adds, per entry, the signed net of
the records whose month key matches that entry's key. -/
theorem fill_buckets (rs : List Record) (m : List ((Int × Int) × ℚ)) :
    rs.foldl (fun m r => bucketAdd m (recordKey r) (signedAmount r)) m =
      m.map (fun p => (p.1, p.2 + specNetAmount rs p.1)) := by
  induction rs generalizing m with
  | nil =>
      simp only [List.foldl_nil, specNetAmount_nil]
      simp
  | cons r rest ih =>
      simp only [List.foldl_cons]
      rw [ih, bucketAdd_eq_map, List.map_map]
      apply List.map_congr_left
      intro p hp
      simp only [Function.comp]
      by_cases hk : p.1 = recordKey r
      · rw [if_pos hk, specNetAmount_cons, if_pos (hk.symm)]
        simp only
        rw [Prod.mk.injEq]
        exact ⟨rfl, by ring⟩
      · rw [if_neg hk, specNetAmount_cons,
          if_neg (fun he => hk (he.symm))]
        rw [Prod.mk.injEq]
        exact ⟨rfl, by ring⟩

/-- The bucket key map is injective: distinct offsets from the base month
give distinct `(year, month)` keys. -/
theorem trendKey_inj (base : Date) : Function.Injective (trendKey base) := by
  intro i j h
  unfold trendKey at h
  simp only [Prod.mk.injEq] at h
  omega

/-- Building the initial buckets never hits the `key in buckets` guard (keys
are pairwise distinct), so it is exactly one zero bucket per offset. -/
theorem trend_init_buckets (today : Date) (months : Nat) :
    (List.range months).foldl (fun m i =>
      if (m.map Prod.fst).contains (trendKey today i) then m
      else m ++ [(trendKey today i, 0)]) [] =
      (List.range months).map (fun i => (trendKey today i, (0 : ℚ))) := by
  induction months with
  | zero => rfl
  | succ n ih =>
      rw [List.range_succ, List.foldl_append, ih, List.map_append]
      simp only [List.foldl_cons, List.foldl_nil, List.map_cons, List.map_nil]
      have hnot : ¬ (((List.range n).map
          (fun i => (trendKey today i, (0 : ℚ)))).map Prod.fst).contains
            (trendKey today n) := by
        intro hc
        have hmem := List.elem_iff.1 hc
        rw [List.map_map] at hmem
        obtain ⟨i, hi, he⟩ := List.mem_map.1 hmem
        have : i = n := trendKey_inj today (by simpa using he)
        rw [List.mem_range] at hi
        omega
      rw [if_neg hnot]

theorem keyLE_true_iff (a b : (Int × Int) × ℚ) : keyLE a b = true ↔
    (a.1.1 < b.1.1 ∨ (a.1.1 = b.1.1 ∧ a.1.2 ≤ b.1.2)) := by
  unfold keyLE
  simp [Bool.or_eq_true, Bool.and_eq_true, decide_eq_true_eq, beq_iff_eq]

theorem keyLE_trans (a b c : (Int × Int) × ℚ)
    (h1 : keyLE a b = true) (h2 : keyLE b c = true) : keyLE a c = true := by
  rw [keyLE_true_iff] at h1 h2 ⊢
  omega

theorem keyLE_total (a b : (Int × Int) × ℚ) :
    keyLE a b || keyLE b a := by
  cases hab : keyLE a b with
  | true => simp
  | false =>
      rw [Bool.eq_false_iff, Ne, keyLE_true_iff] at hab
      simp only [Bool.false_or]
      rw [keyLE_true_iff]
      omega

theorem keyLE_and_ne_keyLT (a b : (Int × Int) × ℚ)
    (h1 : keyLE a b = true) (h2 : a.1 ≠ b.1) : keyLT a b := by
  rw [keyLE_true_iff] at h1
  rw [Ne, Prod.ext_iff, not_and_or] at h2
  unfold keyLT
  rcases h2 with h2 | h2 <;> omega

/-- Going further back in time strictly decreases the `(year, month)` key. -/
theorem trendKey_strict_anti (base : Date) (i j : Nat) (hij : i < j)
    (u v : ℚ) : keyLT (trendKey base j, u) (trendKey base i, v) := by
  unfold keyLT trendKey
  simp only
  omega

/-- Reversing `map f (range n)` relabels indices by `n - 1 - j`. -/
theorem map_range_reverse {α : Type} (f : Nat → α) (n : Nat) :
    ((List.range n).map f).reverse =
      (List.range n).map (fun j => f (n - 1 - j)) := by
  induction n generalizing f with
  | zero => rfl
  | succ m ih =>
      have lhs : ((List.range (m + 1)).map f).reverse =
          f m :: ((List.range m).map f).reverse := by
        rw [List.range_succ, List.map_append, List.reverse_append]
        simp
      have rhs : (List.range (m + 1)).map (fun j => f (m + 1 - 1 - j)) =
          f m :: (List.range m).map (fun j => f (m - 1 - j)) := by
        rw [List.range_succ_eq_map]
        simp only [List.map_cons, List.map_map]
        congr 1
        apply List.map_congr_left
        intro i hi
        simp only [Function.comp]
        congr 1
        omega
      rw [lhs, rhs, ih f]

/-- The trend entries are built newest month first: strictly descending keys. -/
theorem trend_entries_desc (today : Date) (months : Nat) (g : Nat → ℚ) :
    List.Pairwise (fun a b => keyLT b a)
      ((List.range months).map (fun i => (trendKey today i, g i))) := by
  rw [List.pairwise_map]
  exact (List.pairwise_lt_range months).imp
    (fun hij => trendKey_strict_anti today _ _ hij _ _)

/- ### C6 -/

/-- C6: for `months ≥ 1` and the real current date (a valid calendar date,
with the `months`-month window staying within years 1000..9999 so that every
bucket key renders as a four-digit `"YYYY-MM"` string and string order is
chronological order, on every platform's `strftime`), `monthly_trend` returns
exactly `months` pairs, keyed by the `months` consecutive calendar months
ending at the current month, oldest first, each valued at the signed net
(income positive, expense negative) of the records falling in that month;
records outside the window contribute nothing. -/
theorem monthly_trend_semantics (today : Date) (months : Nat) (s : LedgerStore)
    (_hm : 1 ≤ months) (_hv : today.valid = true)
    (_hwindow : 12 * 1000 + (months : Int) ≤ monthIndex today + 1) :
    monthly_trend today months s =
      (List.range months).map (fun j =>
        (trendKey today (months - 1 - j),
         specNetAmount s.records (trendKey today (months - 1 - j)))) ∧
    (monthly_trend today months s).length = months := by
  have hmain : monthly_trend today months s =
      (List.range months).map (fun j =>
        (trendKey today (months - 1 - j),
         specNetAmount s.records (trendKey today (months - 1 - j)))) := by
    unfold monthly_trend
    rw [trend_init_buckets, fill_buckets, List.map_map]
    have hfe : ((fun p : (Int × Int) × ℚ =>
          (p.1, p.2 + specNetAmount s.records p.1)) ∘
        (fun i => (trendKey today i, (0 : ℚ)))) =
        (fun i => (trendKey today i, specNetAmount s.records (trendKey today i))) := by
      funext i
      simp [Function.comp]
    rw [hfe]
    have htarget : (List.range months).map (fun j =>
        (trendKey today (months - 1 - j),
         specNetAmount s.records (trendKey today (months - 1 - j)))) =
        ((List.range months).map (fun i =>
          (trendKey today i, specNetAmount s.records (trendKey today i)))).reverse := by
      rw [map_range_reverse]
    rw [htarget]
    apply List.eq_of_perm_of_sorted (r := keyLT)
    · exact (List.mergeSort_perm _ _).trans (List.reverse_perm _).symm
    · have hle := List.sorted_mergeSort keyLE_trans keyLE_total
        ((List.range months).map (fun i =>
          (trendKey today i, specNetAmount s.records (trendKey today i))))
      have hndkeys : ((((List.range months).map (fun i =>
          (trendKey today i, specNetAmount s.records (trendKey today i)))).mergeSort
            keyLE).map Prod.fst).Nodup := by
        apply ((List.mergeSort_perm _ keyLE).map Prod.fst).nodup_iff.mpr
        rw [List.map_map]
        have : (Prod.fst ∘ (fun i =>
            (trendKey today i, specNetAmount s.records (trendKey today i)))) =
            trendKey today := rfl
        rw [this]
        exact (List.nodup_range months).map (trendKey_inj today)
      have hne := (List.pairwise_map (f := Prod.fst)).1 hndkeys
      exact List.Pairwise.imp (fun h =>
          keyLE_and_ne_keyLT _ _ h.1 h.2) (hle.and hne)
    · exact (List.pairwise_reverse).mpr (trend_entries_desc today months _)
  exact ⟨hmain, by rw [hmain]; simp⟩

/-- Witness for C6 at the spec's own example: current month 2024-05,
`monthly_trend(3)`. -/
theorem monthly_trend_semantics_witness :
    monthly_trend ⟨2024, 5, 1⟩ 3 initStore =
      (List.range 3).map (fun j =>
        (trendKey ⟨2024, 5, 1⟩ (3 - 1 - j),
         specNetAmount initStore.records (trendKey ⟨2024, 5, 1⟩ (3 - 1 - j)))) ∧
    (monthly_trend ⟨2024, 5, 1⟩ 3 initStore).length = 3 :=
  monthly_trend_semantics ⟨2024, 5, 1⟩ 3 initStore (by decide) (by decide)
    (by decide)
